import Mathlib

/-!
Shallow embedding of rosapi objectutils (src/rosapi/src/rosapi/objectutils.py)
and verification of its specified properties.

The Python module introspects live message instances coming from an external
loader.  We model an instance by the data the code actually reads from it:
its module name, its class name, the presence of the introspection attributes,
the parallel slot lists, the per-slot values and the non-routine attributes
seen by attribute enumeration.  A Python string is modelled by a Lean String
(a sequence of code points, as in Python); string slicing and find are
embedded by explicit helper functions.  The loader is modelled as a finite
association list; a failed lookup models the exception raised by the loader.
Recursion is embedded with an explicit fuel parameter; the dedicated result
constructor outOfFuel is an artifact of the embedding, and we prove that with
enough fuel (one more than the number of distinct known type names) it never
occurs, which is the termination argument of the source.
-/

namespace Rosbridge

/-- Python value of a field, as observed by the code: its module name,
class name, whether it is a Python list, and its str() rendering. -/
structure Value where
  module : String
  className : String
  isList : Bool
  strRepr : String
deriving DecidableEq

/-- One entry of attribute enumeration over an instance: attribute name,
the str() rendering of its value, and whether inspect.isroutine holds of
the value. -/
structure Attr where
  name : String
  strVal : String
  isRoutine : Bool
deriving DecidableEq

/-- A live message instance, restricted to the introspection surface the
code reads: hasSlots and hasSlotTypes model the two hasattr checks, slots
models the ordered field-name list, slotTypes the parallel raw declared
type strings, slotValues the parallel current field values, and attributes
the raw (unsorted) member list that attribute enumeration will report. -/
structure Instance where
  module : String
  className : String
  hasSlots : Bool
  hasSlotTypes : Bool
  slots : List String
  slotTypes : List String
  slotValues : List Value
  attributes : List Attr
deriving DecidableEq

/-- The typedef dictionary produced by the code (class TypeDefDict). -/
structure TypeDef where
  type : String
  fieldnames : List String
  fieldtypes : List String
  fieldarraylen : List Int
  examples : List String
  constnames : List String
  constvalues : List String
deriving DecidableEq

/-- TypeDefDict() initial value: type is a single space, all lists empty. -/
def emptyTypeDef : TypeDef :=
  { type := " ", fieldnames := [], fieldtypes := [], fieldarraylen := [],
    examples := [], constnames := [], constvalues := [] }

/-- The external loader (ros_loader), modelled as finite association lists
from type name to instance; a missing key models the exception the loader
raises on an unknown type. -/
structure Registry where
  messages : List (String × Instance)
  serviceRequests : List (String × Instance)
  serviceResponses : List (String × Instance)

/-- Atomic type names, exactly as listed in the source. -/
def atomics : List String :=
  ["bool", "byte", "int8", "uint8", "int16", "uint16", "int32", "uint32",
   "int64", "uint64", "float32", "float64", "string"]

/-- Special type names, exactly as listed in the source. -/
def specials : List String := ["time", "duration"]

/-- Python str.find for a single character over a list of code points:
first index of the character, or -1 when absent. -/
def pyFindIdx (cs : List Char) (c : Char) : Int :=
  match cs with
  | [] => -1
  | a :: rest =>
    if a = c then 0
    else if pyFindIdx rest c < 0 then -1 else pyFindIdx rest c + 1

/-- Python slice s[0:j] over a list of code points, with the Python
convention that a negative j counts from the end. -/
def pySliceTo (cs : List Char) (j : Int) : List Char :=
  if j < 0 then cs.take ((cs.length : Int) + j).toNat else cs.take j.toNat

/-- Decimal value of a digit string. -/
def digitsVal (cs : List Char) : Nat :=
  cs.foldl (fun a c => a * 10 + (c.toNat - 48)) 0

/-- Python int() on the string contents, embedded on its defined domain of
nonempty decimal digit strings; on other inputs Python raises ValueError
(behavior the spec leaves undefined for malformed array suffixes), and this
embedding returns 0 there. -/
def pyInt (cs : List Char) : Int :=
  if cs ≠ [] ∧ cs.all Char.isDigit then (digitsVal cs : Int) else 0

/-- Array-arity classification of a raw declared field type string,
mirroring the suffix inspection in the field loop of the descriptor
builder: no trailing bracket gives arity -1 and the unchanged string; a
trailing pair of brackets gives arity 0 with both stripped; otherwise the
number between the first opening bracket and the final character is the
arity and everything from the first opening bracket on is stripped. -/
def classifyFieldType (ft : String) : Int × String :=
  let cs := ft.toList
  if cs.getLast? = some ']' then
    if cs.dropLast.getLast? = some '[' then
      ((0 : Int), String.mk cs.dropLast.dropLast)
    else
      let split := pyFindIdx cs '['
      (pyInt (cs.dropLast.drop (split + 1).toNat),
       if split < 0 then String.mk cs.dropLast else String.mk (cs.take split.toNat))
  else ((-1 : Int), ft)

/-- Fully qualified name built from a module name and a class name: the
module sliced up to the first dot (Python slice with find, which drops the
final character when no dot exists), then a slash, then the class name. -/
def type_name_from_instance (mod cls : String) : String :=
  String.mk (pySliceTo mod.toList (pyFindIdx mod.toList '.')) ++ "/" ++ cls

/-- Fully qualified type of a field: atomic and special names unchanged,
unchanged when the value is a Python list, otherwise derived from the
module and class of the value. -/
def type_name (type_ : String) (v : Value) : String :=
  if type_ ∈ atomics ∨ type_ ∈ specials then type_
  else if v.isList then type_
  else type_name_from_instance v.module v.className

/-- Python getattr on a slot name: the value paired with the first slot of
that name (slot names are unique in Python, where they are attribute names). -/
def pyGetattr (inst : Instance) (name : String) : Value :=
  match (inst.slots.zip inst.slotValues).find? (fun p => p.1 == name) with
  | some p => p.2
  | none => { module := "", className := "", isList := false, strRepr := "" }

/-- Data computed for one field by one iteration of the field loop. -/
structure FieldEntry where
  fname : String
  falen : Int
  ftype : String
  fex : String
deriving DecidableEq

/-- One iteration of the field loop of the descriptor builder: pull the
name, classify the raw type, resolve the qualified type from the current
value, and synthesize the example string. -/
def fieldEntry (inst : Instance) (i : Nat) : FieldEntry :=
  { fname := inst.slots.getD i ""
    falen := (classifyFieldType (inst.slotTypes.getD i "")).1
    ftype := type_name (classifyFieldType (inst.slotTypes.getD i "")).2
              (pyGetattr inst (inst.slots.getD i ""))
    fex :=
      if (classifyFieldType (inst.slotTypes.getD i "")).1 ≥ 0 then "[]"
      else if (classifyFieldType (inst.slotTypes.getD i "")).2 ∉ atomics then "{}"
      else (pyGetattr inst (inst.slots.getD i "")).strRepr }

/-- Lexicographic comparison of code point lists, the order Python sorted
uses on strings. -/
def charListLe : List Char → List Char → Bool
  | [], _ => true
  | _ :: _, [] => false
  | a :: as, b :: bs => if a = b then charListLe as bs else decide (a < b)

/-- Python string comparison used by sorted. -/
def pyStrLe (s t : String) : Bool := charListLe s.toList t.toList

/-- inspect.getmembers with the non-routine predicate: the members of the
instance whose values are not routines, sorted by name (getmembers returns
name-sorted pairs). -/
def getmembers (inst : Instance) : List Attr :=
  List.insertionSort (fun a b => pyStrLe a.name b.name = true)
    (inst.attributes.filter (fun a => !a.isRoutine))

/-- Python str.startswith over code point lists. -/
def strStartsWith (s p : String) : Bool := p.toList.isPrefixOf s.toList

/-- Python str.endswith over code point lists. -/
def strEndsWith (s p : String) : Bool := p.toList.reverse.isPrefixOf s.toList.reverse

/-- Dunder filter applied to member names. -/
def isDunder (s : String) : Bool := strStartsWith s "__" && strEndsWith s "__"

/-- Fixed denylist of bookkeeping attribute names excluded from constants. -/
def constDenylist : List String :=
  ["_md5sum", "_has_header", "_type", "_full_text", "_slot_types"]

/-- The members that survive the constant extraction filters: non-routine,
non-dunder, not in the denylist and not a slot name. -/
def constAttrs (inst : Instance) : List Attr :=
  ((getmembers inst).filter (fun a => !(isDunder a.name))).filter
    (fun a => decide (a.name ∉ constDenylist) && decide (a.name ∉ inst.slots))

/-- The private descriptor builder on an instance: absent when the instance
is null or lacks either introspection attribute, otherwise the assembled
typedef.  The source checks the negative condition first and returns None;
here the positive branch comes first, with identical semantics. -/
def get_typedef_inst : Option Instance → Option TypeDef
  | none => none
  | some inst =>
    if inst.hasSlots && inst.hasSlotTypes then
      some { type := type_name_from_instance inst.module inst.className
             fieldnames := (List.range inst.slots.length).map (fun i => (fieldEntry inst i).fname)
             fieldtypes := (List.range inst.slots.length).map (fun i => (fieldEntry inst i).ftype)
             fieldarraylen := (List.range inst.slots.length).map (fun i => (fieldEntry inst i).falen)
             examples := (List.range inst.slots.length).map (fun i => (fieldEntry inst i).fex)
             constnames := (constAttrs inst).map Attr.name
             constvalues := (constAttrs inst).map Attr.strVal }
    else none

/-- The mocked typedef for the two special types; for any other argument
the fresh TypeDefDict is returned unchanged. -/
def get_special_typedef (type_ : String) : TypeDef :=
  if type_ ∈ specials then
    { type := type_
      fieldnames := ["secs", "nsecs"]
      fieldtypes := ["int32", "int32"]
      fieldarraylen := [-1, -1]
      examples := ["0", "0"]
      constnames := []
      constvalues := [] }
  else emptyTypeDef

/-- ros_loader.get_message_instance: lookup in the message registry; none
models the raised exception for an unknown type. -/
def get_message_instance (reg : Registry) (t : String) : Option Instance :=
  (reg.messages.find? (fun p => p.1 == t)).map Prod.snd

/-- ros_loader.get_service_request_instance. -/
def get_service_request_instance (reg : Registry) (t : String) : Option Instance :=
  (reg.serviceRequests.find? (fun p => p.1 == t)).map Prod.snd

/-- ros_loader.get_service_response_instance. -/
def get_service_response_instance (reg : Registry) (t : String) : Option Instance :=
  (reg.serviceResponses.find? (fun p => p.1 == t)).map Prod.snd

/-- get_typedef: atomics yield no typedef, specials are mocked up, and any
other name goes through the loader; a loader failure propagates as an
error. -/
def get_typedef (reg : Registry) (type_ : String) : Except Unit (Option TypeDef) :=
  if type_ ∈ atomics then .ok none
  else if type_ ∈ specials then .ok (some (get_special_typedef type_))
  else
    match get_message_instance reg type_ with
    | none => .error ()
    | some inst => .ok (get_typedef_inst (some inst))

/-- get_service_request_typedef. -/
def get_service_request_typedef (reg : Registry) (servicetype : String) :
    Except Unit (Option TypeDef) :=
  match get_service_request_instance reg servicetype with
  | none => .error ()
  | some inst => .ok (get_typedef_inst (some inst))

/-- get_service_response_typedef. -/
def get_service_response_typedef (reg : Registry) (servicetype : String) :
    Except Unit (Option TypeDef) :=
  match get_service_response_instance reg servicetype with
  | none => .error ()
  | some inst => .ok (get_typedef_inst (some inst))

/-- Result of a recursive expansion: the list of typedefs together with the
final state of the mutable typesseen list, a propagated loader error, or
fuel exhaustion (an artifact of the embedding, proved unreachable for
sufficient fuel). -/
inductive ExpandResult where
  | ok (tds : List TypeDef) (seen : List String)
  | loaderError
  | outOfFuel
deriving DecidableEq

/-- The for loop of the subtype expansion: left-to-right over the field
types, threading the typesseen list and accumulating typedefs by list
concatenation, exactly as the source loop does. -/
def expandFieldsWith (rec : String → List String → ExpandResult) :
    List String → List TypeDef → List String → ExpandResult
  | [], acc, seen => .ok acc seen
  | ft :: fts, acc, seen =>
    match rec ft seen with
    | .ok tds seen2 => expandFieldsWith rec fts (acc ++ tds) seen2
    | .loaderError => .loaderError
    | .outOfFuel => .outOfFuel

/-- The body of the subtype expansion, parametrized by the recursive
expansion used on each field type: an absent typedef contributes nothing,
otherwise the typedef itself followed by the expansions of its field
types. -/
def subtypedefsWith (rec : String → List String → ExpandResult)
    (td : Option TypeDef) (seen : List String) : ExpandResult :=
  match td with
  | none => .ok [] seen
  | some td => expandFieldsWith rec td.fieldtypes [td] seen

/-- The recursive expansion of a type name with an explicit fuel bound: a
name already seen contributes nothing, otherwise it is appended to the
typesseen list, its typedef fetched, and its subtypes expanded. -/
def get_typedefs_recursive (reg : Registry) : Nat → String → List String → ExpandResult
  | 0 => fun _ _ => .outOfFuel
  | fuel + 1 => fun t seen =>
    if t ∈ seen then .ok [] seen
    else
      match get_typedef reg t with
      | .error _ => .loaderError
      | .ok td => subtypedefsWith (get_typedefs_recursive reg fuel) td (seen ++ [t])

/-- The subtype expansion at a given fuel level. -/
def get_subtypedefs_recursive (reg : Registry) (fuel : Nat)
    (td : Option TypeDef) (seen : List String) : ExpandResult :=
  subtypedefsWith (get_typedefs_recursive reg fuel) td seen

/-- All type names known to the system: atomics, specials, and the keys of
the message registry. -/
def allTypeNames (reg : Registry) : List String :=
  (atomics ++ specials ++ reg.messages.map Prod.fst).dedup

/-- Fuel that always suffices: one more than the number of known names. -/
def expandFuel (reg : Registry) : Nat := (allTypeNames reg).length + 1

/-- get_typedef_recursive: recursive expansion from a type name with a
fresh typesseen list. -/
def get_typedef_recursive (reg : Registry) (t : String) : ExpandResult :=
  get_typedefs_recursive reg (expandFuel reg) t []

/-- get_service_request_typedef_recursive: build the typedef of the service
request instance, then expand its subtypes with a fresh typesseen list. -/
def get_service_request_typedef_recursive (reg : Registry) (servicetype : String) :
    ExpandResult :=
  match get_service_request_instance reg servicetype with
  | none => .loaderError
  | some inst =>
    get_subtypedefs_recursive reg (expandFuel reg) (get_typedef_inst (some inst)) []

/-- get_service_response_typedef_recursive. -/
def get_service_response_typedef_recursive (reg : Registry) (servicetype : String) :
    ExpandResult :=
  match get_service_response_instance reg servicetype with
  | none => .loaderError
  | some inst =>
    get_subtypedefs_recursive reg (expandFuel reg) (get_typedef_inst (some inst)) []

/-- Number of known type names not yet in the typesseen list; the measure
that bounds the recursion. -/
def avail (reg : Registry) (seen : List String) : Nat :=
  ((allTypeNames reg).filter (fun x => decide (x ∉ seen))).length

/-- Registry coherence: every registered message instance has the
registered name as its qualified name.  This is the property the real
loader guarantees, since it resolves exactly the names that qualified
naming produces. -/
def CoherentReg (reg : Registry) : Prop :=
  ∀ p ∈ reg.messages, type_name_from_instance p.2.module p.2.className = p.1

/-- Parallel-array invariant of a typedef: the four field sequences have
equal length and the two constant sequences have equal length. -/
def LenInv (td : TypeDef) : Prop :=
  td.fieldnames.length = td.fieldtypes.length ∧
  td.fieldtypes.length = td.fieldarraylen.length ∧
  td.fieldarraylen.length = td.examples.length ∧
  td.constnames.length = td.constvalues.length

/-- Modelled from the spec: the first dot-separated segment of a module
name (the top-level namespace segment), used to compare the code behavior
against the claimed naming rule. -/
def specFirstSegment (mod : String) : String :=
  String.mk (mod.toList.takeWhile (fun c => c != '.'))

/-- Modelled from the spec: the claimed qualified-name rule, top-level
namespace segment of the module, slash, runtime class name. -/
def specQualifiedName (mod cls : String) : String :=
  specFirstSegment mod ++ "/" ++ cls

/-- The example-synthesis rule exactly as claim C2 states it, including its
final branch asserting that scalar fields of atomic or special base type
carry the stringified current field value. -/
def claimedExampleRule (inst : Instance) (td : TypeDef) : Prop :=
  ∀ i : Fin inst.slots.length,
    ((classifyFieldType (inst.slotTypes.getD i.1 "")).1 ≥ 0 →
      td.examples.getD i.1 "" = "[]") ∧
    ((classifyFieldType (inst.slotTypes.getD i.1 "")).1 < 0 →
      (classifyFieldType (inst.slotTypes.getD i.1 "")).2 ∉ atomics →
      td.examples.getD i.1 "" = "{}") ∧
    ((classifyFieldType (inst.slotTypes.getD i.1 "")).1 < 0 →
      ((classifyFieldType (inst.slotTypes.getD i.1 "")).2 ∈ atomics ∨
        (classifyFieldType (inst.slotTypes.getD i.1 "")).2 ∈ specials) →
      td.examples.getD i.1 "" = (pyGetattr inst (inst.slots.getD i.1 "")).strRepr)

instance (inst : Instance) (td : TypeDef) : Decidable (claimedExampleRule inst td) := by
  unfold claimedExampleRule; infer_instance

instance (reg : Registry) : Decidable (CoherentReg reg) := by
  unfold CoherentReg; infer_instance

/-- A message instance with a single scalar field whose declared type is its
own qualified name; used to exercise self-reference. -/
def instSelfA : Instance :=
  { module := "p.msg", className := "A", hasSlots := true, hasSlotTypes := true,
    slots := ["a"], slotTypes := ["p/A"],
    slotValues := [{ module := "p.msg", className := "A", isList := false, strRepr := "v" }],
    attributes := [] }

/-- The typedef the descriptor builder produces for instSelfA. -/
def tdSelfA : TypeDef :=
  { type := "p/A", fieldnames := ["a"], fieldtypes := ["p/A"],
    fieldarraylen := [-1], examples := ["{}"], constnames := [], constvalues := [] }

/-- Registry with the single self-referential message type. -/
def selfReg : Registry :=
  { messages := [("p/A", instSelfA)], serviceRequests := [], serviceResponses := [] }

/-- Registry exposing instSelfA both as a message type and as the request
half of a service, so that the request type is reachable from its own
fields. -/
def cexSrvReg : Registry :=
  { messages := [("p/A", instSelfA)],
    serviceRequests := [("p/ASrv", instSelfA)], serviceResponses := [] }

/-- First half of a mutually recursive pair: A has one field of type B. -/
def instMutA : Instance :=
  { module := "p.msg", className := "A", hasSlots := true, hasSlotTypes := true,
    slots := ["b"], slotTypes := ["p/B"],
    slotValues := [{ module := "p.msg", className := "B", isList := false, strRepr := "v" }],
    attributes := [] }

/-- Second half of the pair: B has one field of type A. -/
def instMutB : Instance :=
  { module := "p.msg", className := "B", hasSlots := true, hasSlotTypes := true,
    slots := ["a"], slotTypes := ["p/A"],
    slotValues := [{ module := "p.msg", className := "A", isList := false, strRepr := "v" }],
    attributes := [] }

/-- Typedef of instMutA. -/
def tdMutA : TypeDef :=
  { type := "p/A", fieldnames := ["b"], fieldtypes := ["p/B"],
    fieldarraylen := [-1], examples := ["{}"], constnames := [], constvalues := [] }

/-- Typedef of instMutB. -/
def tdMutB : TypeDef :=
  { type := "p/B", fieldnames := ["a"], fieldtypes := ["p/A"],
    fieldarraylen := [-1], examples := ["{}"], constnames := [], constvalues := [] }

/-- Registry with the mutually recursive pair. -/
def mutReg : Registry :=
  { messages := [("p/A", instMutA), ("p/B", instMutB)],
    serviceRequests := [], serviceResponses := [] }

/-- A message instance with a single scalar field of the special type time,
whose current value renders as now. -/
def cexTimeInst : Instance :=
  { module := "p.msg", className := "M", hasSlots := true, hasSlotTypes := true,
    slots := ["stamp"], slotTypes := ["time"],
    slotValues := [{ module := "genpy.rostime", className := "Time", isList := false, strRepr := "now" }],
    attributes := [] }

/-- The typedef the descriptor builder produces for cexTimeInst. -/
def cexTimeTd : TypeDef :=
  { type := "p/M", fieldnames := ["stamp"], fieldtypes := ["time"],
    fieldarraylen := [-1], examples := ["{}"], constnames := [], constvalues := [] }

/-- A message instance with one atomic scalar field. -/
def cexPointInst : Instance :=
  { module := "geometry_msgs.msg", className := "Point", hasSlots := true, hasSlotTypes := true,
    slots := ["x"], slotTypes := ["float64"],
    slotValues := [{ module := "builtins", className := "float", isList := false, strRepr := "0.0" }],
    attributes := [] }

/-- The typedef the descriptor builder produces for cexPointInst. -/
def cexPointTd : TypeDef :=
  { type := "geometry_msgs/Point", fieldnames := ["x"], fieldtypes := ["float64"],
    fieldarraylen := [-1], examples := ["0.0"], constnames := [], constvalues := [] }

/-- A field value whose module name has no dot. -/
def cexDotlessVal : Value :=
  { module := "toplevel", className := "C", isList := false, strRepr := "x" }

/-- A message instance carrying constants: two plain members out of name
order, one dunder member, one denylist member, one routine member and one
member shadowed by a slot. -/
def cexConstInst : Instance :=
  { module := "p.msg", className := "K", hasSlots := true, hasSlotTypes := true,
    slots := ["x"], slotTypes := ["int32"],
    slotValues := [{ module := "builtins", className := "int", isList := false, strRepr := "0" }],
    attributes :=
      [{ name := "Z", strVal := "1", isRoutine := false },
       { name := "A", strVal := "2", isRoutine := false },
       { name := "__d__", strVal := "w", isRoutine := false },
       { name := "_type", strVal := "p/K", isRoutine := false },
       { name := "m", strVal := "f", isRoutine := true },
       { name := "x", strVal := "0", isRoutine := false }] }

/-- The typedef the descriptor builder produces for cexConstInst. -/
def cexConstTd : TypeDef :=
  { type := "p/K", fieldnames := ["x"], fieldtypes := ["int32"],
    fieldarraylen := [-1], examples := ["0"], constnames := ["A", "Z"],
    constvalues := ["2", "1"] }

/-! Helper lemmas about the string primitives. -/

theorem toList_mk (l : List Char) : (String.mk l).toList = l := rfl

theorem pyFindIdx_nonneg_of_mem {cs : List Char} {c : Char} (h : c ∈ cs) :
    0 ≤ pyFindIdx cs c := by
  induction cs with
  | nil => simp at h
  | cons a rest ih =>
    by_cases hac : a = c
    · simp [pyFindIdx, hac]
    · have hc : c ∈ rest := by
        rcases List.mem_cons.mp h with h1 | h1
        · exact absurd h1.symm hac
        · exact h1
      have hr := ih hc
      simp only [pyFindIdx, hac, if_false]
      rw [if_neg (by omega)]
      omega

theorem pyFindIdx_append_cons {base rest : List Char} {c : Char} (h : c ∉ base) :
    pyFindIdx (base ++ c :: rest) c = (base.length : Int) := by
  induction base with
  | nil => simp [pyFindIdx]
  | cons a l ih =>
    have h2 : c ≠ a ∧ c ∉ l := by simpa [List.mem_cons, not_or] using h
    have hac : ¬(a = c) := fun e => h2.1 e.symm
    have hr := ih h2.2
    have hnn : (0 : Int) ≤ pyFindIdx (l ++ c :: rest) c := by rw [hr]; positivity
    simp only [List.cons_append, pyFindIdx, hac, if_false, List.append_eq]
    rw [if_neg (by omega), hr]
    simp

theorem pySliceTo_nonneg (cs : List Char) (j : Int) (h : 0 ≤ j) :
    pySliceTo cs j = cs.take j.toNat := by
  simp only [pySliceTo]
  rw [if_neg (by omega)]

theorem pySlice_find_eq_takeWhile : ∀ cs : List Char, '.' ∈ cs →
    pySliceTo cs (pyFindIdx cs '.') = cs.takeWhile (fun c => c != '.') := by
  intro cs
  induction cs with
  | nil => intro h; simp at h
  | cons a l ih =>
    intro h
    by_cases ha : a = '.'
    · subst ha
      simp [pyFindIdx, pySliceTo, List.takeWhile_cons]
    · have hl : '.' ∈ l := by
        rcases List.mem_cons.mp h with h1 | h1
        · exact absurd h1.symm ha
        · exact h1
      have hnn := pyFindIdx_nonneg_of_mem hl
      simp only [pyFindIdx, ha, if_false]
      rw [if_neg (by omega)]
      rw [List.takeWhile_cons, if_pos (by simp [ha])]
      rw [pySliceTo_nonneg _ _ (by omega)]
      have ht : (pyFindIdx l '.' + 1).toNat = (pyFindIdx l '.').toNat + 1 := by omega
      rw [ht, List.take_succ_cons]
      rw [← pySliceTo_nonneg _ _ hnn, ih hl]

theorem type_name_from_instance_eq_spec (mod cls : String) (h : '.' ∈ mod.toList) :
    type_name_from_instance mod cls = specQualifiedName mod cls := by
  unfold type_name_from_instance specQualifiedName specFirstSegment
  rw [pySlice_find_eq_takeWhile mod.toList h]

/-! Helper lemmas about the array-suffix classification. -/

theorem classify_no_bracket (ft : String) (h : ft.toList.getLast? ≠ some ']') :
    classifyFieldType ft = (-1, ft) := by
  simp only [classifyFieldType]
  rw [if_neg h]

theorem classify_var_array (base : List Char) :
    classifyFieldType (String.mk (base ++ ['[', ']'])) = (0, String.mk base) := by
  have e : base ++ ['[', ']'] = (base ++ ['[']) ++ [']'] := by simp
  simp only [classifyFieldType, toList_mk, e]
  rw [if_pos (by rw [List.getLast?_concat])]
  rw [if_pos (by rw [List.dropLast_concat, List.getLast?_concat])]
  rw [List.dropLast_concat, List.dropLast_concat]

theorem classify_fixed_array (base ds : List Char) (hb : '[' ∉ base) (hne : ds ≠ [])
    (hd : ∀ c ∈ ds, c.isDigit = true) :
    classifyFieldType (String.mk (base ++ '[' :: (ds ++ [']']))) =
      ((digitsVal ds : Int), String.mk base) := by
  have e : base ++ '[' :: (ds ++ [']']) = (base ++ '[' :: ds) ++ [']'] := by simp
  have hds : (base ++ '[' :: ds).getLast? = ds.getLast? := by
    rw [show base ++ '[' :: ds = (base ++ ['[']) ++ ds from by simp,
      List.getLast?_append_of_ne_nil _ hne]
  have hlast : ds.getLast? = some (ds.getLast hne) := List.getLast?_eq_getLast_of_ne_nil hne
  have hdig : (ds.getLast hne).isDigit = true := hd _ (List.getLast_mem hne)
  have hnotbr : ¬((base ++ '[' :: ds).getLast? = some '[') := by
    rw [hds, hlast]
    intro hh
    have : ds.getLast hne = '[' := by exact Option.some.inj hh
    rw [this] at hdig
    simp [Char.isDigit] at hdig
  have hfind : pyFindIdx ((base ++ '[' :: ds) ++ [']']) '[' = (base.length : Int) := by
    rw [← e]; exact pyFindIdx_append_cons hb
  simp only [classifyFieldType, toList_mk, e]
  rw [if_pos (by rw [List.getLast?_concat])]
  rw [if_neg (by rw [List.dropLast_concat]; exact hnotbr)]
  rw [hfind]
  rw [if_neg (by omega)]
  have ht : ((base.length : Int) + 1).toNat = base.length + 1 := by omega
  rw [List.dropLast_concat, ht]
  have hdrop : (base ++ '[' :: ds).drop (base.length + 1) = ds := by
    rw [show base ++ '[' :: ds = (base ++ ['[']) ++ ds from by simp,
      show base.length + 1 = (base ++ ['[']).length from by simp,
      List.drop_left]
  rw [hdrop]
  have htake : ((base ++ '[' :: ds) ++ [']']).take (base.length : Int).toNat = base := by
    rw [Int.toNat_natCast,
      show (base ++ '[' :: ds) ++ [']'] = base ++ ('[' :: ds ++ [']']) from by simp,
      List.take_left]
  rw [htake]
  have hint : pyInt ds = (digitsVal ds : Int) := by
    simp only [pyInt]
    rw [if_pos ⟨hne, by rw [List.all_eq_true]; exact hd⟩]
  rw [hint]

/-! Invariants of the recursive expansion. -/

theorem expandFieldsWith_seen (rec : String → List String → ExpandResult)
    (hrec : ∀ t s tds s2, rec t s = .ok tds s2 →
      ∃ new, s2 = s ++ new ∧ new.Nodup ∧ ∀ x ∈ new, x ∉ s) :
    ∀ fts acc seen tds s2, expandFieldsWith rec fts acc seen = .ok tds s2 →
      ∃ new, s2 = seen ++ new ∧ new.Nodup ∧ ∀ x ∈ new, x ∉ seen := by
  intro fts
  induction fts with
  | nil =>
    intro acc seen tds s2 h
    simp only [expandFieldsWith] at h
    obtain ⟨rfl, rfl⟩ := ExpandResult.ok.inj h
    exact ⟨[], by simp, by simp, by simp⟩
  | cons ft fts ih =>
    intro acc seen tds s2 h
    cases hr : rec ft seen with
    | ok tds1 s1 =>
      simp only [expandFieldsWith, hr] at h
      obtain ⟨new1, rfl, hnd1, hni1⟩ := hrec ft seen tds1 s1 hr
      obtain ⟨new2, rfl, hnd2, hni2⟩ := ih (acc ++ tds1) (seen ++ new1) tds s2 h
      refine ⟨new1 ++ new2, by simp, ?_, ?_⟩
      · rw [List.nodup_append]
        refine ⟨hnd1, hnd2, fun a ha1 ha2 => ?_⟩
        exact hni2 a ha2 (List.mem_append.mpr (Or.inr ha1))
      · intro x hx
        rcases List.mem_append.mp hx with h1 | h1
        · exact hni1 x h1
        · intro hxs
          exact hni2 x h1 (List.mem_append.mpr (Or.inl hxs))
    | loaderError => simp only [expandFieldsWith, hr] at h; exact ExpandResult.noConfusion h
    | outOfFuel => simp only [expandFieldsWith, hr] at h; exact ExpandResult.noConfusion h

theorem typedefs_recursive_seen (reg : Registry) :
    ∀ fuel t seen tds s2, get_typedefs_recursive reg fuel t seen = .ok tds s2 →
      ∃ new, s2 = seen ++ new ∧ new.Nodup ∧ ∀ x ∈ new, x ∉ seen := by
  intro fuel
  induction fuel with
  | zero => intro t seen tds s2 h; exact ExpandResult.noConfusion h
  | succ fuel ih =>
    intro t seen tds s2 h
    simp only [get_typedefs_recursive] at h
    by_cases hts : t ∈ seen
    · rw [if_pos hts] at h
      obtain ⟨rfl, rfl⟩ := ExpandResult.ok.inj h
      exact ⟨[], by simp, by simp, by simp⟩
    · rw [if_neg hts] at h
      cases hg : get_typedef reg t with
      | error e => simp only [hg] at h; exact ExpandResult.noConfusion h
      | ok td =>
        simp only [hg] at h
        cases td with
        | none =>
          simp only [subtypedefsWith] at h
          obtain ⟨rfl, rfl⟩ := ExpandResult.ok.inj h
          refine ⟨[t], by simp, by simp, ?_⟩
          intro x hx
          have : x = t := by simpa using hx
          subst this
          exact hts
        | some d =>
          simp only [subtypedefsWith] at h
          obtain ⟨new1, hs2, hnd1, hni1⟩ := expandFieldsWith_seen _ ih _ _ _ _ _ h
          refine ⟨t :: new1, ?_, ?_, ?_⟩
          · rw [hs2]; simp
          · rw [List.nodup_cons]
            exact ⟨fun hmem => (hni1 t hmem) (by simp), hnd1⟩
          · intro x hx
            rcases List.mem_cons.mp hx with rfl | h1
            · exact hts
            · intro hxs
              exact hni1 x h1 (List.mem_append.mpr (Or.inl hxs))

theorem subtypedefs_seen (reg : Registry) (fuel : Nat) (td : Option TypeDef)
    (seen tds s2 : List _) (h : get_subtypedefs_recursive reg fuel td seen = .ok tds s2) :
    ∃ new, s2 = seen ++ new ∧ new.Nodup ∧ ∀ x ∈ new, x ∉ seen := by
  cases td with
  | none =>
    simp only [get_subtypedefs_recursive, subtypedefsWith] at h
    obtain ⟨rfl, rfl⟩ := ExpandResult.ok.inj h
    exact ⟨[], by simp, by simp, by simp⟩
  | some d =>
    simp only [get_subtypedefs_recursive, subtypedefsWith] at h
    exact expandFieldsWith_seen _ (typedefs_recursive_seen reg fuel) _ _ _ _ _ h

theorem expandFieldsWith_acc (rec : String → List String → ExpandResult) :
    ∀ fts acc seen tds s2, expandFieldsWith rec fts acc seen = .ok tds s2 →
      ∃ rest, tds = acc ++ rest := by
  intro fts
  induction fts with
  | nil =>
    intro acc seen tds s2 h
    simp only [expandFieldsWith] at h
    obtain ⟨rfl, rfl⟩ := ExpandResult.ok.inj h
    exact ⟨[], by simp⟩
  | cons ft fts ih =>
    intro acc seen tds s2 h
    cases hr : rec ft seen with
    | ok tds1 s1 =>
      simp only [expandFieldsWith, hr] at h
      obtain ⟨rest, hrest⟩ := ih _ _ _ _ h
      exact ⟨tds1 ++ rest, by rw [hrest]; simp⟩
    | loaderError => simp only [expandFieldsWith, hr] at h; exact ExpandResult.noConfusion h
    | outOfFuel => simp only [expandFieldsWith, hr] at h; exact ExpandResult.noConfusion h

theorem expandFieldsWith_types (rec : String → List String → ExpandResult)
    (hrec : ∀ t s tds s2, rec t s = .ok tds s2 →
      ∃ new, s2 = s ++ new ∧ (tds.map TypeDef.type).Sublist new) :
    ∀ fts acc seen tds s2, expandFieldsWith rec fts acc seen = .ok tds s2 →
      ∃ new rest, s2 = seen ++ new ∧ tds = acc ++ rest ∧
        (rest.map TypeDef.type).Sublist new := by
  intro fts
  induction fts with
  | nil =>
    intro acc seen tds s2 h
    simp only [expandFieldsWith] at h
    obtain ⟨rfl, rfl⟩ := ExpandResult.ok.inj h
    exact ⟨[], [], by simp, by simp, by simp⟩
  | cons ft fts ih =>
    intro acc seen tds s2 h
    cases hr : rec ft seen with
    | ok tds1 s1 =>
      simp only [expandFieldsWith, hr] at h
      obtain ⟨new1, rfl, hsub1⟩ := hrec _ _ _ _ hr
      obtain ⟨new2, rest2, rfl, rfl, hsub2⟩ := ih _ _ _ _ h
      refine ⟨new1 ++ new2, tds1 ++ rest2, by simp, by simp, ?_⟩
      rw [List.map_append]
      exact List.Sublist.append hsub1 hsub2
    | loaderError => simp only [expandFieldsWith, hr] at h; exact ExpandResult.noConfusion h
    | outOfFuel => simp only [expandFieldsWith, hr] at h; exact ExpandResult.noConfusion h

theorem get_typedef_some_type (reg : Registry) (t : String) (d : TypeDef)
    (hco : CoherentReg reg) (h : get_typedef reg t = .ok (some d)) : d.type = t := by
  simp only [get_typedef] at h
  by_cases ha : t ∈ atomics
  · rw [if_pos ha] at h
    exact Option.noConfusion (Except.ok.inj h)
  · rw [if_neg ha] at h
    by_cases hs : t ∈ specials
    · rw [if_pos hs] at h
      have hd : get_special_typedef t = d := Option.some.inj (Except.ok.inj h)
      rw [← hd]
      simp [get_special_typedef, hs]
    · rw [if_neg hs] at h
      cases hm : get_message_instance reg t with
      | none => rw [hm] at h; exact Except.noConfusion h
      | some inst =>
        rw [hm] at h
        have hinst : get_typedef_inst (some inst) = some d := Except.ok.inj h
        simp only [get_message_instance] at hm
        obtain ⟨p, hfind, hp2⟩ := Option.map_eq_some'.mp hm
        have hmem := List.mem_of_find?_eq_some hfind
        have hpt : p.1 = t := by simpa using List.find?_some hfind
        have hco2 := hco p hmem
        simp only [get_typedef_inst] at hinst
        by_cases hsl : (inst.hasSlots && inst.hasSlotTypes) = true
        · rw [if_pos hsl] at hinst
          have hh := Option.some.inj hinst
          rw [← hh]
          show type_name_from_instance inst.module inst.className = t
          rw [← hp2] at *
          rw [hco2, hpt]
        · rw [if_neg hsl] at hinst
          exact Option.noConfusion hinst

theorem typedefs_recursive_types (reg : Registry) (hco : CoherentReg reg) :
    ∀ fuel t seen tds s2, get_typedefs_recursive reg fuel t seen = .ok tds s2 →
      ∃ new, s2 = seen ++ new ∧ (tds.map TypeDef.type).Sublist new := by
  intro fuel
  induction fuel with
  | zero => intro t seen tds s2 h; exact ExpandResult.noConfusion h
  | succ fuel ih =>
    intro t seen tds s2 h
    simp only [get_typedefs_recursive] at h
    by_cases hts : t ∈ seen
    · rw [if_pos hts] at h
      obtain ⟨rfl, rfl⟩ := ExpandResult.ok.inj h
      exact ⟨[], by simp, by simp⟩
    · rw [if_neg hts] at h
      cases hg : get_typedef reg t with
      | error e => simp only [hg] at h; exact ExpandResult.noConfusion h
      | ok td =>
        simp only [hg] at h
        cases td with
        | none =>
          simp only [subtypedefsWith] at h
          obtain ⟨rfl, rfl⟩ := ExpandResult.ok.inj h
          exact ⟨[t], by simp, by simp⟩
        | some d =>
          simp only [subtypedefsWith] at h
          obtain ⟨new1, rest1, hs2, htds, hsub⟩ := expandFieldsWith_types _ ih _ _ _ _ _ h
          have hdt : d.type = t := get_typedef_some_type reg t d hco hg
          refine ⟨t :: new1, by rw [hs2]; simp, ?_⟩
          rw [htds]
          have : ([d] ++ rest1).map TypeDef.type = t :: rest1.map TypeDef.type := by
            simp [hdt]
          rw [this]
          exact List.Sublist.cons₂ t hsub

theorem expandFieldsWith_all (P : TypeDef → Prop) (rec : String → List String → ExpandResult)
    (hrec : ∀ t s tds s2, rec t s = .ok tds s2 → ∀ td ∈ tds, P td) :
    ∀ fts acc seen tds s2, expandFieldsWith rec fts acc seen = .ok tds s2 →
      (∀ td ∈ acc, P td) → ∀ td ∈ tds, P td := by
  intro fts
  induction fts with
  | nil =>
    intro acc seen tds s2 h hacc
    simp only [expandFieldsWith] at h
    obtain ⟨rfl, rfl⟩ := ExpandResult.ok.inj h
    exact hacc
  | cons ft fts ih =>
    intro acc seen tds s2 h hacc
    cases hr : rec ft seen with
    | ok tds1 s1 =>
      simp only [expandFieldsWith, hr] at h
      refine ih _ _ _ _ h ?_
      intro td htd
      rcases List.mem_append.mp htd with h1 | h1
      · exact hacc td h1
      · exact hrec _ _ _ _ hr td h1
    | loaderError => simp only [expandFieldsWith, hr] at h; exact ExpandResult.noConfusion h
    | outOfFuel => simp only [expandFieldsWith, hr] at h; exact ExpandResult.noConfusion h

theorem get_typedef_all (reg : Registry) (P : TypeDef → Prop)
    (hspec : ∀ t, P (get_special_typedef t))
    (hinst : ∀ o td, get_typedef_inst o = some td → P td) :
    ∀ t td, get_typedef reg t = .ok (some td) → P td := by
  intro t td h
  simp only [get_typedef] at h
  by_cases ha : t ∈ atomics
  · rw [if_pos ha] at h
    exact Option.noConfusion (Except.ok.inj h)
  · rw [if_neg ha] at h
    by_cases hs : t ∈ specials
    · rw [if_pos hs] at h
      have hd : get_special_typedef t = td := Option.some.inj (Except.ok.inj h)
      exact hd ▸ hspec t
    · rw [if_neg hs] at h
      cases hm : get_message_instance reg t with
      | none => rw [hm] at h; exact Except.noConfusion h
      | some inst =>
        rw [hm] at h
        exact hinst (some inst) td (Except.ok.inj h)

theorem typedefs_recursive_all (reg : Registry) (P : TypeDef → Prop)
    (hg : ∀ t td, get_typedef reg t = .ok (some td) → P td) :
    ∀ fuel t seen tds s2, get_typedefs_recursive reg fuel t seen = .ok tds s2 →
      ∀ td ∈ tds, P td := by
  intro fuel
  induction fuel with
  | zero => intro t seen tds s2 h; exact ExpandResult.noConfusion h
  | succ fuel ih =>
    intro t seen tds s2 h
    simp only [get_typedefs_recursive] at h
    by_cases hts : t ∈ seen
    · rw [if_pos hts] at h
      obtain ⟨rfl, rfl⟩ := ExpandResult.ok.inj h
      simp
    · rw [if_neg hts] at h
      cases hgt : get_typedef reg t with
      | error e => simp only [hgt] at h; exact ExpandResult.noConfusion h
      | ok td0 =>
        simp only [hgt] at h
        cases td0 with
        | none =>
          simp only [subtypedefsWith] at h
          obtain ⟨rfl, rfl⟩ := ExpandResult.ok.inj h
          simp
        | some d =>
          simp only [subtypedefsWith] at h
          refine expandFieldsWith_all P _ ih _ _ _ _ _ h ?_
          intro td htd
          have : td = d := by simpa using htd
          subst this
          exact hg t td hgt

theorem subtypedefs_all (reg : Registry) (P : TypeDef → Prop)
    (hg : ∀ t td, get_typedef reg t = .ok (some td) → P td)
    (fuel : Nat) (td0 : Option TypeDef) (h0 : ∀ d, td0 = some d → P d)
    (seen tds s2 : List _) (h : get_subtypedefs_recursive reg fuel td0 seen = .ok tds s2) :
    ∀ td ∈ tds, P td := by
  cases td0 with
  | none =>
    simp only [get_subtypedefs_recursive, subtypedefsWith] at h
    obtain ⟨rfl, rfl⟩ := ExpandResult.ok.inj h
    simp
  | some d =>
    simp only [get_subtypedefs_recursive, subtypedefsWith] at h
    refine expandFieldsWith_all P _ (typedefs_recursive_all reg P hg fuel) _ _ _ _ _ h ?_
    intro td htd
    have he : td = d := by simpa using htd
    rw [he]
    exact h0 d rfl

/-! Fuel sufficiency of the recursive expansion. -/

theorem length_filter_mono {α : Type} (l : List α) (p q : α → Bool)
    (h : ∀ x, p x = true → q x = true) :
    (l.filter p).length ≤ (l.filter q).length := by
  induction l with
  | nil => simp
  | cons a l ih =>
    by_cases hp : p a = true
    · rw [List.filter_cons_of_pos hp, List.filter_cons_of_pos (h a hp)]
      simpa using ih
    · rw [List.filter_cons_of_neg (by simpa using hp)]
      by_cases hq : q a = true
      · rw [List.filter_cons_of_pos hq]
        refine le_trans ih ?_
        simp
      · rw [List.filter_cons_of_neg (by simpa using hq)]
        exact ih

theorem avail_mono (reg : Registry) (seen s2 : List String) (h : ∀ x ∈ seen, x ∈ s2) :
    avail reg s2 ≤ avail reg seen := by
  unfold avail
  apply length_filter_mono
  intro x hx
  simp only [decide_eq_true_eq] at hx ⊢
  intro hmem
  exact hx (h x hmem)

theorem filter_notmem_strict {l seen : List String} {t : String} (ht : t ∈ l) (hn : t ∉ seen) :
    (l.filter (fun x => decide (x ∉ seen ++ [t]))).length <
      (l.filter (fun x => decide (x ∉ seen))).length := by
  induction l with
  | nil => simp at ht
  | cons a l ih =>
    rcases List.mem_cons.mp ht with rfl | hmem
    · rw [List.filter_cons_of_neg (by simp), List.filter_cons_of_pos (by simpa using hn)]
      have hle := length_filter_mono l (fun x => decide (x ∉ seen ++ [t]))
        (fun x => decide (x ∉ seen)) ?_
      · simpa using Nat.lt_succ_of_le hle
      · intro x hx
        simp only [decide_eq_true_eq] at hx ⊢
        intro hc
        exact hx (by simp [hc])
    · by_cases hasn : a ∈ seen
      · rw [List.filter_cons_of_neg (by simp [hasn]), List.filter_cons_of_neg (by simp [hasn])]
        exact ih hmem
      · by_cases hat : a = t
        · subst hat
          rw [List.filter_cons_of_neg (by simp), List.filter_cons_of_pos (by simpa using hasn)]
          exact Nat.lt_succ_of_lt (ih hmem)
        · have h1 : a ∉ seen ++ [t] := by simp [hasn, hat]
          rw [List.filter_cons_of_pos (by simpa using h1),
            List.filter_cons_of_pos (by simpa using hasn)]
          simpa using Nat.succ_lt_succ (ih hmem)

theorem avail_strict (reg : Registry) {t : String} {seen : List String}
    (ht : t ∈ allTypeNames reg) (hn : t ∉ seen) :
    avail reg (seen ++ [t]) < avail reg seen :=
  filter_notmem_strict ht hn

theorem get_typedef_ok_mem (reg : Registry) (t : String) (td : Option TypeDef)
    (h : get_typedef reg t = .ok td) : t ∈ allTypeNames reg := by
  simp only [get_typedef] at h
  by_cases ha : t ∈ atomics
  · simp [allTypeNames, List.mem_dedup, ha]
  · rw [if_neg ha] at h
    by_cases hs : t ∈ specials
    · simp [allTypeNames, List.mem_dedup, hs]
    · rw [if_neg hs] at h
      cases hm : get_message_instance reg t with
      | none => rw [hm] at h; exact Except.noConfusion h
      | some inst =>
        simp only [get_message_instance] at hm
        obtain ⟨p, hfind, _⟩ := Option.map_eq_some'.mp hm
        have hmem := List.mem_of_find?_eq_some hfind
        have hpt : p.1 = t := by simpa using List.find?_some hfind
        have hmap : t ∈ reg.messages.map Prod.fst := by
          rw [← hpt]
          exact List.mem_map_of_mem Prod.fst hmem
        simp [allTypeNames, List.mem_dedup, hmap]

theorem expandFieldsWith_noOOF (reg : Registry) (bound : Nat)
    (rec : String → List String → ExpandResult)
    (hrec : ∀ t s, avail reg s < bound → rec t s ≠ .outOfFuel)
    (hseen : ∀ t s tds s2, rec t s = .ok tds s2 →
      ∃ new, s2 = s ++ new ∧ new.Nodup ∧ ∀ x ∈ new, x ∉ s) :
    ∀ fts acc seen, avail reg seen < bound →
      expandFieldsWith rec fts acc seen ≠ .outOfFuel := by
  intro fts
  induction fts with
  | nil =>
    intro acc seen hav h
    simp only [expandFieldsWith] at h
    exact ExpandResult.noConfusion h
  | cons ft fts ih =>
    intro acc seen hav h
    cases hr : rec ft seen with
    | ok tds1 s1 =>
      simp only [expandFieldsWith, hr] at h
      obtain ⟨new1, rfl, _, _⟩ := hseen _ _ _ _ hr
      have hmono : avail reg (seen ++ new1) ≤ avail reg seen :=
        avail_mono reg _ _ (fun x hx => by simp [hx])
      exact ih (acc ++ tds1) (seen ++ new1) (by omega) h
    | loaderError => simp only [expandFieldsWith, hr] at h; exact ExpandResult.noConfusion h
    | outOfFuel => exact hrec ft seen hav hr

theorem typedefs_recursive_noOOF (reg : Registry) :
    ∀ fuel t seen, avail reg seen < fuel →
      get_typedefs_recursive reg fuel t seen ≠ .outOfFuel := by
  intro fuel
  induction fuel with
  | zero => intro t seen hav; exact absurd hav (Nat.not_lt_zero _)
  | succ fuel ih =>
    intro t seen hav h
    simp only [get_typedefs_recursive] at h
    by_cases hts : t ∈ seen
    · rw [if_pos hts] at h; exact ExpandResult.noConfusion h
    · rw [if_neg hts] at h
      cases hg : get_typedef reg t with
      | error e => simp only [hg] at h; exact ExpandResult.noConfusion h
      | ok td =>
        simp only [hg] at h
        have hmem := get_typedef_ok_mem reg t td hg
        have hstrict := avail_strict reg hmem hts
        cases td with
        | none =>
          simp only [subtypedefsWith] at h
          exact ExpandResult.noConfusion h
        | some d =>
          simp only [subtypedefsWith] at h
          exact expandFieldsWith_noOOF reg fuel _ ih (typedefs_recursive_seen reg fuel)
            _ _ _ (by omega) h

theorem avail_nil (reg : Registry) : avail reg [] = (allTypeNames reg).length := by
  simp [avail]

/-! Structure of typedefs produced by the descriptor builder. -/

theorem get_typedef_inst_some {inst : Instance} {td : TypeDef}
    (h : get_typedef_inst (some inst) = some td) :
    (inst.hasSlots && inst.hasSlotTypes) = true ∧
    td.type = type_name_from_instance inst.module inst.className ∧
    td.fieldnames = (List.range inst.slots.length).map (fun i => (fieldEntry inst i).fname) ∧
    td.fieldtypes = (List.range inst.slots.length).map (fun i => (fieldEntry inst i).ftype) ∧
    td.fieldarraylen = (List.range inst.slots.length).map (fun i => (fieldEntry inst i).falen) ∧
    td.examples = (List.range inst.slots.length).map (fun i => (fieldEntry inst i).fex) ∧
    td.constnames = (constAttrs inst).map Attr.name ∧
    td.constvalues = (constAttrs inst).map Attr.strVal := by
  simp only [get_typedef_inst] at h
  by_cases hsl : (inst.hasSlots && inst.hasSlotTypes) = true
  · rw [if_pos hsl] at h
    have hh := Option.some.inj h
    rw [← hh]
    exact ⟨hsl, rfl, rfl, rfl, rfl, rfl, rfl, rfl⟩
  · rw [if_neg hsl] at h
    exact Option.noConfusion h

theorem getD_range_map {α : Type} (f : Nat → α) (n i : Nat) (d : α) (h : i < n) :
    ((List.range n).map f).getD i d = f i := by
  rw [List.getD_eq_getElem?_getD, List.getElem?_map, List.getElem?_range h]
  rfl

theorem getD_map_attr (f : Attr → String) (L : List Attr) (i : Nat) (h : i < L.length) :
    (L.map f).getD i "" = f (L.get ⟨i, h⟩) := by
  rw [List.getD_eq_getElem?_getD, List.getElem?_map, List.getElem?_eq_getElem h]
  rfl

/-! The Python string order used by sorted: totality and transitivity. -/

theorem charListLe_total : ∀ as bs : List Char, charListLe as bs = true ∨ charListLe bs as = true := by
  intro as
  induction as with
  | nil => intro bs; left; rfl
  | cons a as ih =>
    intro bs
    cases bs with
    | nil => right; rfl
    | cons b bs =>
      by_cases hab : a = b
      · subst hab
        rcases ih bs with h | h
        · left; simpa [charListLe] using h
        · right; simpa [charListLe] using h
      · rcases lt_or_gt_of_ne hab with hlt | hgt
        · left; simp [charListLe, hab, hlt]
        · right
          have hba : ¬(b = a) := fun e => hab e.symm
          simp [charListLe, hba, hgt]

theorem charListLe_trans : ∀ as bs cs : List Char, charListLe as bs = true →
    charListLe bs cs = true → charListLe as cs = true := by
  intro as
  induction as with
  | nil => intro bs cs h1 h2; rfl
  | cons a as ih =>
    intro bs cs h1 h2
    cases bs with
    | nil => simp [charListLe] at h1
    | cons b bs =>
      cases cs with
      | nil => simp [charListLe] at h2
      | cons c cs =>
        by_cases hab : a = b
        · subst hab
          by_cases hac : a = c
          · subst hac
            simp only [charListLe, if_pos rfl] at h1 h2 ⊢
            exact ih bs cs h1 h2
          · simp only [charListLe, if_pos rfl] at h1
            simp only [charListLe, hac, if_false] at h2 ⊢
            exact h2
        · by_cases hbc : b = c
          · subst hbc
            simp only [charListLe, hab, if_false] at h1 ⊢
            exact h1
          · simp only [charListLe, hab, hbc, if_false] at h1 h2
            have hlt1 : a < b := by simpa using h1
            have hlt2 : b < c := by simpa using h2
            have hac : a < c := lt_trans hlt1 hlt2
            have hane : ¬(a = c) := ne_of_lt hac
            simp [charListLe, hane, hac]

/-- Characterization of the members surviving the constant filters. -/
theorem mem_constAttrs (inst : Instance) (a : Attr) :
    a ∈ constAttrs inst ↔
      a ∈ inst.attributes ∧ a.isRoutine = false ∧ isDunder a.name = false ∧
      a.name ∉ constDenylist ∧ a.name ∉ inst.slots := by
  have hperm : a ∈ getmembers inst ↔ (a ∈ inst.attributes ∧ a.isRoutine = false) := by
    rw [getmembers, (List.perm_insertionSort _ _).mem_iff, List.mem_filter]
    simp
  rw [constAttrs, List.mem_filter, List.mem_filter, hperm]
  simp only [Bool.not_eq_true', Bool.and_eq_true, decide_eq_true_eq]
  tauto

/-- The constant attribute list inherits sortedness from getmembers. -/
theorem constAttrs_sorted (inst : Instance) :
    List.Pairwise (fun a b : Attr => pyStrLe a.name b.name = true) (constAttrs inst) := by
  have h1 : List.Pairwise (fun a b : Attr => pyStrLe a.name b.name = true) (getmembers inst) :=
    @List.sorted_insertionSort Attr _ _
      ⟨fun a b => charListLe_total a.name.toList b.name.toList⟩
      ⟨fun a b c hab hbc => charListLe_trans _ _ _ hab hbc⟩ _
  exact (h1.filter _).filter _

/-! Claim theorems. -/

/-- Claim C1 (amended): the expansion never expands the same requested type
name twice, so over a coherent registry (every registered instance carries
its registered name as qualified name) the closure returned by
get_typedef_recursive lists pairwise distinct type values, each at its
first depth-first position (its order is a sublist of the duplicate-free
typesseen order).  As stated originally the claim is false: the two
service entry points do not seed the root into typesseen, so the root
typedef can recur, and an incoherent registry can alias two names to one
type value. -/
theorem claim_C1 :
    ∀ (reg : Registry) (t : String) (tds : List TypeDef) (s2 : List String),
      CoherentReg reg → get_typedef_recursive reg t = .ok tds s2 →
      (tds.map TypeDef.type).Sublist s2 ∧ s2.Nodup ∧ (tds.map TypeDef.type).Nodup := by
  intro reg t tds s2 hco h
  obtain ⟨new, hs2, hsub⟩ := typedefs_recursive_types reg hco _ _ _ _ _ h
  obtain ⟨new2, hs2b, hnd, -⟩ := typedefs_recursive_seen reg _ _ _ _ _ h
  have h1 : (tds.map TypeDef.type).Sublist s2 := by
    rw [hs2, List.nil_append]; exact hsub
  have h2 : s2.Nodup := by
    rw [hs2b, List.nil_append]; exact hnd
  exact ⟨h1, h2, List.Nodup.sublist h1 h2⟩

/-- Claim C1 counterexample: entering through the service request entry
point with a request type whose own qualified name is reachable from its
fields produces the root typedef twice, so the closure is not
duplicate-free as the claim states. -/
theorem claim_C1_counterexample :
    get_service_request_typedef_recursive cexSrvReg "p/ASrv" =
      .ok [tdSelfA, tdSelfA] ["p/A"] ∧
    ¬ (([tdSelfA, tdSelfA].map TypeDef.type).Nodup) :=
  ⟨by decide, by decide⟩

/-- Claim C1 witness: the amended theorem applied to the concrete coherent
mutually recursive registry. -/
theorem claim_C1_witness : ([tdMutA, tdMutB].map TypeDef.type).Nodup :=
  (claim_C1 mutReg "p/A" [tdMutA, tdMutB] ["p/A", "p/B"] (by decide) (by decide)).2.2

/-- Claim C2 (amended): for every field of a typedef produced by the
descriptor builder, the recorded arity is the classified arity of the raw
declared type; an arity of at least zero yields the example string of an
empty sequence; a scalar arity with a base type outside the atomic set
(which includes the two special temporal types, since they are not
atomic) yields the empty-mapping string; and a scalar arity with an
atomic base yields the stringified current field value.  The original
claim instead asserted the stringified value for special bases, which the
code sends to the empty-mapping branch. -/
theorem claim_C2 :
    ∀ (inst : Instance) (td : TypeDef), get_typedef_inst (some inst) = some td →
    ∀ i, i < inst.slots.length →
      td.fieldarraylen.getD i 0 = (classifyFieldType (inst.slotTypes.getD i "")).1 ∧
      ((classifyFieldType (inst.slotTypes.getD i "")).1 ≥ 0 →
        td.examples.getD i "" = "[]") ∧
      ((classifyFieldType (inst.slotTypes.getD i "")).1 < 0 →
        (classifyFieldType (inst.slotTypes.getD i "")).2 ∉ atomics →
        td.examples.getD i "" = "{}") ∧
      ((classifyFieldType (inst.slotTypes.getD i "")).1 < 0 →
        (classifyFieldType (inst.slotTypes.getD i "")).2 ∈ atomics →
        td.examples.getD i "" = (pyGetattr inst (inst.slots.getD i "")).strRepr) := by
  intro inst td h i hi
  obtain ⟨-, -, -, -, hal, hex, -, -⟩ := get_typedef_inst_some h
  rw [hal, hex, getD_range_map _ _ _ _ hi, getD_range_map _ _ _ _ hi]
  refine ⟨rfl, ?_, ?_, ?_⟩
  · intro hge
    simp only [fieldEntry]
    rw [if_pos hge]
  · intro hlt hna
    simp only [fieldEntry]
    rw [if_neg (by omega), if_pos hna]
  · intro hlt ha
    simp only [fieldEntry]
    rw [if_neg (by omega), if_neg (fun hcon => hcon ha)]

/-- Claim C2 counterexample: a scalar field of the special type time keeps
the empty-mapping example even though its current value renders
differently, refuting the stated rule that scalar fields of atomic or
special base type carry the stringified current value. -/
theorem claim_C2_counterexample :
    get_typedef_inst (some cexTimeInst) = some cexTimeTd ∧
    ¬ claimedExampleRule cexTimeInst cexTimeTd :=
  ⟨by decide, by decide⟩

/-- Claim C2 witness: the amended theorem applied to a concrete instance
with one atomic scalar field. -/
theorem claim_C2_witness :
    cexPointTd.examples.getD 0 "" =
      (pyGetattr cexPointInst (cexPointInst.slots.getD 0 "")).strRepr :=
  (claim_C2 cexPointInst cexPointTd (by decide) 0 (by decide)).2.2.2 (by decide) (by decide)

/-- Claim C3: for both special type names get_typedef returns, for every
registry state, the fixed typedef with the two int32 scalar fields secs
and nsecs, both with example 0, and no constants. -/
theorem claim_C3 : ∀ reg : Registry,
    get_typedef reg "time" = .ok (some
      { type := "time", fieldnames := ["secs", "nsecs"], fieldtypes := ["int32", "int32"],
        fieldarraylen := [-1, -1], examples := ["0", "0"],
        constnames := [], constvalues := [] }) ∧
    get_typedef reg "duration" = .ok (some
      { type := "duration", fieldnames := ["secs", "nsecs"], fieldtypes := ["int32", "int32"],
        fieldarraylen := [-1, -1], examples := ["0", "0"],
        constnames := [], constvalues := [] }) := by
  intro reg
  constructor <;> rfl

/-- Claim C4: classification of a raw declared field type string: no
trailing bracket gives arity -1 with the string unchanged; a trailing
bracket pair gives arity 0 with the pair stripped; a trailing bracketed
decimal gives that decimal as arity with everything from the first
opening bracket stripped. -/
theorem claim_C4 :
    (∀ ft : String, ft.toList.getLast? ≠ some ']' → classifyFieldType ft = (-1, ft)) ∧
    (∀ base : List Char,
      classifyFieldType (String.mk (base ++ ['[', ']'])) = (0, String.mk base)) ∧
    (∀ base ds : List Char, '[' ∉ base → ds ≠ [] → (∀ c ∈ ds, c.isDigit = true) →
      classifyFieldType (String.mk (base ++ '[' :: (ds ++ [']']))) =
        ((digitsVal ds : Int), String.mk base)) :=
  ⟨classify_no_bracket, classify_var_array, classify_fixed_array⟩

/-- Claim C4 witness: the three branches evaluated on concrete strings. -/
theorem claim_C4_witness :
    classifyFieldType "int32" = (-1, "int32") ∧
    classifyFieldType "Point[]" = (0, "Point") ∧
    classifyFieldType "int32[3]" = (3, "int32") := by
  refine ⟨claim_C4.1 "int32" (by decide), ?_, ?_⟩
  · have h := claim_C4.2.1 ("Point".toList)
    have e1 : String.mk ("Point".toList ++ ['[', ']']) = "Point[]" := by decide
    have e2 : String.mk ("Point".toList) = "Point" := by decide
    rw [e1, e2] at h
    exact h
  · have h := claim_C4.2.2 ("int32".toList) ['3'] (by decide) (by decide) (by decide)
    have e1 : String.mk ("int32".toList ++ '[' :: (['3'] ++ [']'])) = "int32[3]" := by decide
    have e2 : String.mk ("int32".toList) = "int32" := by decide
    have e3 : (digitsVal ['3'] : Int) = 3 := by decide
    rw [e1, e2, e3] at h
    exact h

/-- Claim C5: the recursion terminates on every finite registry: any fuel
exceeding the number of known type names outside the typesseen list
suffices, the dedicated entry point never exhausts its fuel, the
typesseen list only grows by fresh names, and the self-referential and
mutually recursive examples produce closures of exactly one and exactly
two typedefs. -/
theorem claim_C5 :
    (∀ (reg : Registry) (fuel : Nat) (t : String) (seen : List String),
      avail reg seen < fuel → get_typedefs_recursive reg fuel t seen ≠ .outOfFuel) ∧
    (∀ (reg : Registry) (t : String), get_typedef_recursive reg t ≠ .outOfFuel) ∧
    (∀ (reg : Registry) (fuel : Nat) (t : String) (seen : List String)
      (tds : List TypeDef) (s2 : List String),
      get_typedefs_recursive reg fuel t seen = .ok tds s2 →
      ∃ new, s2 = seen ++ new ∧ new.Nodup ∧ ∀ x ∈ new, x ∉ seen) ∧
    get_typedef_recursive selfReg "p/A" = .ok [tdSelfA] ["p/A"] ∧
    get_typedef_recursive mutReg "p/A" = .ok [tdMutA, tdMutB] ["p/A", "p/B"] := by
  refine ⟨?_, ?_, ?_, by decide, by decide⟩
  · intro reg fuel t seen h
    exact typedefs_recursive_noOOF reg fuel t seen h
  · intro reg t
    apply typedefs_recursive_noOOF
    rw [avail_nil]
    simp [expandFuel]
  · intro reg fuel t seen tds s2 h
    exact typedefs_recursive_seen reg fuel t seen tds s2 h

/-- Claim C5 witness: fuel sufficiency applied at a concrete registry and
fuel. -/
theorem claim_C5_witness : get_typedefs_recursive selfReg 17 "p/A" [] ≠ .outOfFuel :=
  claim_C5.1 selfReg 17 "p/A" [] (by decide)

/-- Claim C6: whenever an expansion succeeds with a nonempty closure, its
first element is the typedef of the requested root, and the remainder is
exactly the left-to-right fold over the root typedef field types, each
expanded depth-first before the next sibling; the subtype entry point
used by the service variants likewise puts the given root typedef
first. -/
theorem claim_C6 :
    (∀ (reg : Registry) (fuel : Nat) (td : TypeDef) (seen : List String)
      (tds : List TypeDef) (s2 : List String),
      get_subtypedefs_recursive reg fuel (some td) seen = .ok tds s2 →
      tds.head? = some td) ∧
    (∀ (reg : Registry) (fuel : Nat) (t : String) (seen : List String)
      (tds : List TypeDef) (s2 : List String),
      get_typedefs_recursive reg (fuel + 1) t seen = .ok tds s2 → tds ≠ [] →
      ∃ td, get_typedef reg t = .ok (some td) ∧ tds.head? = some td ∧ t ∉ seen ∧
        expandFieldsWith (get_typedefs_recursive reg fuel) td.fieldtypes [td] (seen ++ [t]) =
          .ok tds s2) := by
  constructor
  · intro reg fuel td seen tds s2 h
    simp only [get_subtypedefs_recursive, subtypedefsWith] at h
    obtain ⟨rest, hrest⟩ := expandFieldsWith_acc _ _ _ _ _ _ h
    rw [hrest]
    rfl
  · intro reg fuel t seen tds s2 h hne
    simp only [get_typedefs_recursive] at h
    by_cases hts : t ∈ seen
    · rw [if_pos hts] at h
      obtain ⟨rfl, rfl⟩ := ExpandResult.ok.inj h
      exact absurd rfl hne
    · rw [if_neg hts] at h
      cases hg : get_typedef reg t with
      | error e => simp only [hg] at h; exact ExpandResult.noConfusion h
      | ok td0 =>
        simp only [hg] at h
        cases td0 with
        | none =>
          simp only [subtypedefsWith] at h
          obtain ⟨rfl, rfl⟩ := ExpandResult.ok.inj h
          exact absurd rfl hne
        | some d =>
          simp only [subtypedefsWith] at h
          obtain ⟨rest, hrest⟩ := expandFieldsWith_acc _ _ _ _ _ _ h
          refine ⟨d, rfl, ?_, hts, h⟩
          rw [hrest]
          rfl

/-- Claim C6 witness: the subtype entry point applied to the concrete
service expansion puts the root typedef first. -/
theorem claim_C6_witness :
    ([tdSelfA, tdSelfA] : List TypeDef).head? = some tdSelfA :=
  claim_C6.1 cexSrvReg 17 tdSelfA [] [tdSelfA, tdSelfA] ["p/A"] (by decide)

/-- Claim C7: every typedef produced by any public operation satisfies the
parallel-array invariant: the four field sequences have equal length and
the two constant sequences have equal length. -/
theorem claim_C7 :
    (∀ (o : Option Instance) (td : TypeDef), get_typedef_inst o = some td → LenInv td) ∧
    (∀ t : String, LenInv (get_special_typedef t)) ∧
    (∀ (reg : Registry) (t : String) (td : TypeDef),
      get_typedef reg t = .ok (some td) → LenInv td) ∧
    (∀ (reg : Registry) (fuel : Nat) (t : String) (seen : List String)
      (tds : List TypeDef) (s2 : List String),
      get_typedefs_recursive reg fuel t seen = .ok tds s2 → ∀ td ∈ tds, LenInv td) ∧
    (∀ (reg : Registry) (st : String) (tds : List TypeDef) (s2 : List String),
      get_service_request_typedef_recursive reg st = .ok tds s2 → ∀ td ∈ tds, LenInv td) ∧
    (∀ (reg : Registry) (st : String) (tds : List TypeDef) (s2 : List String),
      get_service_response_typedef_recursive reg st = .ok tds s2 → ∀ td ∈ tds, LenInv td) ∧
    (∀ (reg : Registry) (st : String) (td : TypeDef),
      get_service_request_typedef reg st = .ok (some td) → LenInv td) ∧
    (∀ (reg : Registry) (st : String) (td : TypeDef),
      get_service_response_typedef reg st = .ok (some td) → LenInv td) := by
  have hinst : ∀ (o : Option Instance) (td : TypeDef), get_typedef_inst o = some td → LenInv td := by
    intro o td h
    cases o with
    | none => exact Option.noConfusion h
    | some inst =>
      obtain ⟨-, -, hfn, hft, hfa, hfe, hcn, hcv⟩ := get_typedef_inst_some h
      refine ⟨?_, ?_, ?_, ?_⟩ <;> simp [hfn, hft, hfa, hfe, hcn, hcv]
  have hspec : ∀ t : String, LenInv (get_special_typedef t) := by
    intro t
    by_cases hs : t ∈ specials
    · simp [get_special_typedef, hs, LenInv]
    · simp [get_special_typedef, hs, LenInv, emptyTypeDef]
  have hg : ∀ (reg : Registry) (t : String) (td : TypeDef),
      get_typedef reg t = .ok (some td) → LenInv td := by
    intro reg
    exact get_typedef_all reg LenInv hspec hinst
  refine ⟨hinst, hspec, hg, ?_, ?_, ?_, ?_, ?_⟩
  · intro reg fuel t seen tds s2 h
    exact typedefs_recursive_all reg LenInv (hg reg) fuel t seen tds s2 h
  · intro reg st tds s2 h
    simp only [get_service_request_typedef_recursive] at h
    cases hm : get_service_request_instance reg st with
    | none => rw [hm] at h; exact ExpandResult.noConfusion h
    | some inst =>
      rw [hm] at h
      exact subtypedefs_all reg LenInv (hg reg) _ _ (fun d hd => hinst (some inst) d hd) _ _ _ h
  · intro reg st tds s2 h
    simp only [get_service_response_typedef_recursive] at h
    cases hm : get_service_response_instance reg st with
    | none => rw [hm] at h; exact ExpandResult.noConfusion h
    | some inst =>
      rw [hm] at h
      exact subtypedefs_all reg LenInv (hg reg) _ _ (fun d hd => hinst (some inst) d hd) _ _ _ h
  · intro reg st td h
    simp only [get_service_request_typedef] at h
    cases hm : get_service_request_instance reg st with
    | none => rw [hm] at h; exact Except.noConfusion h
    | some inst =>
      rw [hm] at h
      exact hinst (some inst) td (Except.ok.inj h)
  · intro reg st td h
    simp only [get_service_response_typedef] at h
    cases hm : get_service_response_instance reg st with
    | none => rw [hm] at h; exact Except.noConfusion h
    | some inst =>
      rw [hm] at h
      exact hinst (some inst) td (Except.ok.inj h)

/-- Claim C7 witness: the invariant evaluated on the typedef returned for
the concrete self-referential type. -/
theorem claim_C7_witness : LenInv tdSelfA :=
  claim_C7.2.2.1 selfReg "p/A" tdSelfA (by rfl)

/-- Claim C8: every atomic name yields an absent typedef from get_typedef
for any registry, the expander treats this as a non-error contributing
nothing beyond marking the name seen, and the descriptor builder returns
absent on a null instance or one lacking either introspection
attribute. -/
theorem claim_C8 :
    (∀ (reg : Registry) (t : String), t ∈ atomics → get_typedef reg t = .ok none) ∧
    (∀ (reg : Registry) (fuel : Nat) (t : String) (seen : List String),
      t ∈ atomics → t ∉ seen →
      get_typedefs_recursive reg (fuel + 1) t seen = .ok [] (seen ++ [t])) ∧
    get_typedef_inst none = none ∧
    (∀ inst : Instance, (inst.hasSlots && inst.hasSlotTypes) = false →
      get_typedef_inst (some inst) = none) := by
  refine ⟨?_, ?_, rfl, ?_⟩
  · intro reg t ha
    simp [get_typedef, ha]
  · intro reg fuel t seen ha hn
    simp only [get_typedefs_recursive]
    rw [if_neg hn]
    have hgt : get_typedef reg t = .ok none := by simp [get_typedef, ha]
    rw [hgt]
    rfl
  · intro inst h
    simp only [get_typedef_inst]
    rw [if_neg (by simp [h])]

/-- Claim C8 witness: the atomic behavior evaluated at a concrete atomic
name and registry. -/
theorem claim_C8_witness :
    get_typedef selfReg "bool" = .ok none ∧
    get_typedefs_recursive selfReg 5 "bool" [] = .ok [] ["bool"] := by
  constructor
  · exact claim_C8.1 selfReg "bool" (by decide)
  · have h := claim_C8.2.1 selfReg 4 "bool" [] (by decide) (by decide)
    simpa using h

/-- Claim C9 (amended): a field type that is atomic or special keeps its
name; a field whose value is a Python list keeps the declared string; any
other field, and the typedef own type value, is named from the value
module and class, and when the module name contains a dot this equals the
first dot-separated segment of the module followed by a slash and the
class name.  As stated originally the claim is false for a module name
without a dot, where the Python slice with find equal to -1 drops the
final character of the module instead of keeping the whole of it. -/
theorem claim_C9 :
    (∀ (t : String) (v : Value), t ∈ atomics ∨ t ∈ specials → type_name t v = t) ∧
    (∀ (t : String) (v : Value), v.isList = true → type_name t v = t) ∧
    (∀ (t : String) (v : Value), t ∉ atomics → t ∉ specials → v.isList = false →
      '.' ∈ v.module.toList → type_name t v = specQualifiedName v.module v.className) ∧
    (∀ (inst : Instance) (td : TypeDef), get_typedef_inst (some inst) = some td →
      td.type = type_name_from_instance inst.module inst.className ∧
      ('.' ∈ inst.module.toList → td.type = specQualifiedName inst.module inst.className)) := by
  refine ⟨?_, ?_, ?_, ?_⟩
  · intro t v h
    simp [type_name, h]
  · intro t v h
    by_cases hx : t ∈ atomics ∨ t ∈ specials
    · simp [type_name, hx]
    · simp [type_name, hx, h]
  · intro t v ha hs hl hdot
    rw [type_name]
    rw [if_neg (by tauto), if_neg (by simp [hl])]
    exact type_name_from_instance_eq_spec _ _ hdot
  · intro inst td h
    obtain ⟨-, hty, -, -, -, -, -, -⟩ := get_typedef_inst_some h
    refine ⟨hty, fun hdot => ?_⟩
    rw [hty]
    exact type_name_from_instance_eq_spec _ _ hdot

/-- Claim C9 counterexample: for a field value whose module name has no
dot, the code emits the module minus its final character, which differs
from the claimed first dot-separated segment. -/
theorem claim_C9_counterexample :
    type_name "pkg/C" cexDotlessVal = "topleve/C" ∧
    specQualifiedName cexDotlessVal.module cexDotlessVal.className = "toplevel/C" ∧
    type_name "pkg/C" cexDotlessVal ≠
      specQualifiedName cexDotlessVal.module cexDotlessVal.className :=
  ⟨by decide, by decide, by decide⟩

/-- Claim C9 witness: the amended naming rule applied to a concrete
non-atomic scalar field value with a dotted module. -/
theorem claim_C9_witness :
    type_name "p/B" { module := "p.msg", className := "B", isList := false, strRepr := "v" } =
      specQualifiedName "p.msg" "B" :=
  claim_C9.2.2.1 "p/B" _ (by decide) (by decide) (by decide) (by decide)

/-- Claim C10: the constant names of a produced typedef are sorted by the
Python string order, they are exactly the non-routine attribute names
that are not dunder names, not in the fixed denylist and not field
names, and the constant values are the parallel stringified attribute
values. -/
theorem claim_C10 :
    ∀ (inst : Instance) (td : TypeDef), get_typedef_inst (some inst) = some td →
      td.constnames.Sorted (fun x y => pyStrLe x y = true) ∧
      (∀ x, x ∈ td.constnames ↔ ∃ a, a ∈ inst.attributes ∧ a.isRoutine = false ∧
        a.name = x ∧ isDunder x = false ∧ x ∉ constDenylist ∧ x ∉ inst.slots) ∧
      td.constvalues.length = td.constnames.length ∧
      (∀ i, i < td.constnames.length → ∃ a, a ∈ inst.attributes ∧
        a.name = td.constnames.getD i "" ∧ a.strVal = td.constvalues.getD i "") := by
  intro inst td h
  obtain ⟨-, -, -, -, -, -, hcn, hcv⟩ := get_typedef_inst_some h
  refine ⟨?_, ?_, ?_, ?_⟩
  · rw [hcn]
    exact List.pairwise_map.mpr (constAttrs_sorted inst)
  · intro x
    rw [hcn]
    constructor
    · intro hx
      obtain ⟨a, haL, hax⟩ := List.mem_map.mp hx
      obtain ⟨h1, h2, h3, h4, h5⟩ := (mem_constAttrs inst a).mp haL
      exact ⟨a, h1, h2, hax, by rw [← hax]; exact h3, by rw [← hax]; exact h4,
        by rw [← hax]; exact h5⟩
    · rintro ⟨a, h1, h2, hax, h3, h4, h5⟩
      refine List.mem_map.mpr ⟨a, (mem_constAttrs inst a).mpr ⟨h1, h2, ?_, ?_, ?_⟩, hax⟩
      · rw [hax]; exact h3
      · rw [hax]; exact h4
      · rw [hax]; exact h5
  · rw [hcn, hcv]; simp
  · intro i hi
    have hlen : i < (constAttrs inst).length := by
      rw [hcn] at hi; simpa using hi
    refine ⟨(constAttrs inst).get ⟨i, hlen⟩, ?_, ?_, ?_⟩
    · exact ((mem_constAttrs inst _).mp (List.get_mem _ _ _)).1
    · rw [hcn, getD_map_attr _ _ _ hlen]
    · rw [hcv, getD_map_attr _ _ _ hlen]

/-- Claim C10 witness: sortedness of the constant names of the concrete
constant-carrying instance. -/
theorem claim_C10_witness :
    cexConstTd.constnames.Sorted (fun x y => pyStrLe x y = true) :=
  (claim_C10 cexConstInst cexConstTd (by decide)).1

end Rosbridge
